import Mathlib

/-!
Shallow embedding of the document-normalization and size-management pipeline
of `src/app.py`: the function `aggressive_preprocess` (lines 105-143) and the
size-managing wrapper `smart_summarize_case` (lines 190-224).

A Python `str` is modelled as `List Char`.  Python's `str.strip()`,
`str.lower()`, `str.isupper()`, the substring test `pat in s`,
`s.split('\n')`, `'\n'.join(ls)`, `s.replace('\n\n\n', '\n\n')` and the
slice `s[:n]` are modelled character by character below.  Whitespace and
letter-case are modelled at their ASCII semantics, which covers every
character class the program's policy actually tests.
-/

/-- Whitespace characters removed by Python `str.strip()` (ASCII range). -/
def pyWs (c : Char) : Bool :=
  c = ' ' || c = '\t' || c = '\n' || c = '\r' || c = '\x0b' || c = '\x0c'

/-- Python `str.lstrip()`: drop leading whitespace. -/
def lstrip (s : List Char) : List Char := s.dropWhile pyWs

/-- Python `str.rstrip()`: drop trailing whitespace. -/
def rstrip (s : List Char) : List Char := (s.reverse.dropWhile pyWs).reverse

/-- Python `str.strip()`: drop whitespace at both ends. -/
def strip (s : List Char) : List Char := rstrip (lstrip s)

/-- Python `str.lower()`, character-wise (ASCII letters). -/
def pyLower (s : List Char) : List Char := s.map Char.toLower

/-- Does `s` start with `pat`?  (Python `s.startswith(pat)`.) -/
def startsWith : List Char → List Char → Bool
  | [], _ => true
  | _ :: _, [] => false
  | p :: ps, c :: cs => p == c && startsWith ps cs

/-- Python substring membership `pat in s`. -/
def containsSubstr (pat : List Char) : List Char → Bool
  | [] => startsWith pat []
  | c :: cs => startsWith pat (c :: cs) || containsSubstr pat cs

/-- Python `str.isupper()`: at least one cased character and no cased
character is lowercase (ASCII semantics). -/
def pyIsUpper (s : List Char) : Bool :=
  s.any (fun c => c.isAlpha) && s.all (fun c => !c.isLower)

/-- Python `s.split('\n')` (line 120 of `src/app.py`): always returns at
least one piece; the empty string splits to `[""]`. -/
def splitNl : List Char → List (List Char)
  | [] => [[]]
  | c :: cs =>
    if c = '\n' then [] :: splitNl cs
    else (c :: (splitNl cs).headI) :: (splitNl cs).tail

/-- Everything after the first piece in `'\n'.join`: a newline before each
further piece. -/
def joinTail : List (List Char) → List Char
  | [] => []
  | l :: ls => '\n' :: (l ++ joinTail ls)

/-- Python `'\n'.join(ls)` (line 138 of `src/app.py`). -/
def joinNl : List (List Char) → List Char
  | [] => []
  | l :: ls => l ++ joinTail ls

/-- The marker list `meta_patterns` of `aggressive_preprocess`
(lines 109-118 of `src/app.py`), transcribed verbatim. -/
def meta_patterns : List (List Char) :=
  [ "in honor of".toList, "dedicated to".toList, "in memory of".toList,
    "this case honors".toList,
    "written by".toList, "authored by".toList, "created by".toList,
    "developed by".toList,
    "mock trial competition".toList, "competition rules".toList,
    "tournament".toList,
    "judge instructions".toList, "scoring".toList, "time limit".toList,
    "points".toList,
    "for educational purposes".toList, "learning objectives".toList,
    "case writer".toList, "based on".toList, "inspired by".toList,
    "copyright".toList, "all rights reserved".toList, "©".toList,
    "page ".toList, "exhibit ".toList, "stipulation".toList ]

/-- The keep/drop decision of the loop body (lines 123-136 of `src/app.py`),
as a function of the trimmed line `line.strip()`.  The code computes
`line_lower = line.strip().lower()` and tests, in order: trimmed length
below 15, marker substring in the lowercased trimmed line, and the
all-caps rule on the trimmed line. -/
def keepCore (stripped : List Char) : Bool :=
  let lineLower := pyLower stripped
  if lineLower.length < 15 then false
  else if meta_patterns.any (fun pat => containsSubstr pat lineLower) then false
  else if pyIsUpper stripped ∧ stripped.length > 5 then false
  else true

/-- Keep/drop decision for one raw line: every test in the loop body reads
only `line.strip()`. -/
def keepLine (line : List Char) : Bool := keepCore (strip line)

/-- One pass of Python `s.replace('\n\n\n', '\n\n')`: replace every
non-overlapping occurrence, scanning left to right. -/
def replaceNl3 : List Char → List Char
  | '\n' :: '\n' :: '\n' :: cs => '\n' :: '\n' :: replaceNl3 cs
  | c :: cs => c :: replaceNl3 cs
  | [] => []

/-- Fuelled form of the while-loop of lines 140-141 of `src/app.py`. -/
def collapseGo : Nat → List Char → List Char
  | 0, s => s
  | fuel + 1, s =>
    if containsSubstr ['\n', '\n', '\n'] s then collapseGo fuel (replaceNl3 s)
    else s

/-- The loop `while '\n\n\n' in cleaned_text: cleaned_text =
cleaned_text.replace('\n\n\n', '\n\n')`.  Each firing iteration shortens
the text by at least one character, so fuel `s.length` reaches the
fixpoint. -/
def collapseNl (s : List Char) : List Char := collapseGo s.length s

/-- The normalizer `aggressive_preprocess` (lines 105-143 of `src/app.py`):
split into lines, keep only substantive lines, rejoin, collapse triple
newlines, and trim the whole result. -/
def aggressive_preprocess (case_text : List Char) : List Char :=
  let lines := splitNl case_text
  let cleaned_lines := lines.filter keepLine
  let cleaned_text := joinNl cleaned_lines
  strip (collapseNl cleaned_text)

/-- The size manager `smart_summarize_case` (lines 190-224 of `src/app.py`).
The external condense capability is an injected oracle; the prompt wrapper
around the document slice is presentation text outside the core, so the
oracle is modelled as receiving the document text placed into the prompt,
namely `case_text[:16000]`.  Its outcome is `Except.error ()` for a raised
exception (the code's `except` branch), `Except.ok none` for a call that
returns a null content, and `Except.ok (some t)` for returned text `t`.
The second component of the result records the document text handed to
each condense invocation, so that claims about when and with what the
capability is called are statable. -/
def smart_summarize_case
    (condense : List Char → Except Unit (Option (List Char)))
    (case_text : List Char) : Option (List Char) × List (List Char) :=
  if case_text.length ≤ 16000 then (some case_text, [])
  else
    let sent := case_text.take 16000
    match condense sent with
    | Except.ok content => (content, [sent])
    | Except.error _ => (some (case_text.take 16000), [sent])

/-- Auxiliary predicate: no two adjacent newline characters occur in `s`
(equivalently, Python `'\n\n' in s` is false). -/
def noNN : List Char → Bool
  | c :: d :: cs => !(c = '\n' && d = '\n') && noNN (d :: cs)
  | _ => true

/-- Auxiliary: right-strip only the last piece of a list of lines. -/
def edgeLast : List (List Char) → List (List Char)
  | [] => []
  | [k] => [rstrip k]
  | k :: k' :: ks => k :: edgeLast (k' :: ks)

/-- Auxiliary: left-strip the first piece and right-strip the last piece.
This is what the final whole-result `.strip()` of `aggressive_preprocess`
does to the list of surviving lines. -/
def edgeStrip : List (List Char) → List (List Char)
  | [] => []
  | k :: ks => edgeLast (lstrip k :: ks)

/-! ### Facts about whitespace stripping -/

theorem dropWhile_append_of_ne_nil {α : Type*} {p : α → Bool} {a b : List α}
    (h : a.dropWhile p ≠ []) : (a ++ b).dropWhile p = a.dropWhile p ++ b := by
  rw [List.dropWhile_append]
  simp [List.isEmpty_iff, h]

theorem lstrip_idem (s : List Char) : lstrip (lstrip s) = lstrip s := by
  simp [lstrip, List.dropWhile_idempotent]

theorem rstrip_idem (s : List Char) : rstrip (rstrip s) = rstrip s := by
  simp [rstrip, List.reverse_reverse, List.dropWhile_idempotent]

theorem lstrip_eq_nil_iff {s : List Char} : lstrip s = [] ↔ ∀ c ∈ s, pyWs c := by
  simp [lstrip, List.dropWhile_eq_nil_iff]

theorem rstrip_eq_nil_iff {s : List Char} : rstrip s = [] ↔ ∀ c ∈ s, pyWs c := by
  simp [rstrip, List.dropWhile_eq_nil_iff]

theorem mem_of_mem_lstrip {c : Char} {s : List Char} (h : c ∈ lstrip s) : c ∈ s := by
  rw [← List.takeWhile_append_dropWhile pyWs s]
  exact List.mem_append_right _ h

theorem mem_of_mem_rstrip {c : Char} {s : List Char} (h : c ∈ rstrip s) : c ∈ s := by
  rw [rstrip, List.mem_reverse] at h
  have h2 : c ∈ s.reverse := by
    rw [← List.takeWhile_append_dropWhile pyWs s.reverse]
    exact List.mem_append_right _ h
  exact List.mem_reverse.mp h2

theorem mem_of_mem_strip {c : Char} {s : List Char} (h : c ∈ strip s) : c ∈ s :=
  mem_of_mem_lstrip (mem_of_mem_rstrip h)

theorem lstrip_ne_nil_of_strip {s : List Char} (h : strip s ≠ []) : lstrip s ≠ [] := by
  intro hl
  exact h (by simp [strip, hl, rstrip])

theorem exists_not_ws_of_strip_ne_nil {s : List Char} (h : strip s ≠ []) :
    ∃ c ∈ s, pyWs c = false := by
  by_contra hall
  push_neg at hall
  have hws : ∀ c ∈ s, pyWs c := by
    intro c hc
    simpa using hall c hc
  exact lstrip_ne_nil_of_strip h (lstrip_eq_nil_iff.mpr hws)

theorem rstrip_ne_nil_of_not_ws {s : List Char} (h : ∃ c ∈ s, pyWs c = false) :
    rstrip s ≠ [] := by
  intro hr
  obtain ⟨c, hc, hcw⟩ := h
  have := rstrip_eq_nil_iff.mp hr c hc
  simp [hcw] at this

theorem lstrip_append {a b : List Char} (h : lstrip a ≠ []) :
    lstrip (a ++ b) = lstrip a ++ b :=
  dropWhile_append_of_ne_nil h

theorem rstrip_append {a b : List Char} (h : rstrip b ≠ []) :
    rstrip (a ++ b) = a ++ rstrip b := by
  have hb : b.reverse.dropWhile pyWs ≠ [] := by
    intro hx
    exact h (by simp [rstrip, hx])
  simp only [rstrip, List.reverse_append]
  rw [dropWhile_append_of_ne_nil hb]
  simp [List.reverse_append, List.reverse_reverse, rstrip]

theorem rstrip_cons_of_ne_nil {c : Char} {x : List Char} (h : rstrip x ≠ []) :
    rstrip (c :: x) = c :: rstrip x := by
  have : rstrip ([c] ++ x) = [c] ++ rstrip x := rstrip_append h
  simpa using this

theorem not_ws_head_lstrip {s : List Char} {c : Char} {d : List Char}
    (h : lstrip s = c :: d) : pyWs c = false := by
  induction s with
  | nil => simp [lstrip] at h
  | cons a as ih =>
    by_cases ha : pyWs a = true
    · rw [lstrip, List.dropWhile_cons_of_pos ha] at h
      exact ih (by simpa [lstrip] using h)
    · rw [lstrip, List.dropWhile_cons_of_neg ha] at h
      injection h with h1 h2
      subst h1
      simpa using ha

theorem rstrip_cons_head_not_ws {c : Char} {d : List Char} (hc : pyWs c = false) :
    ∃ z, rstrip (c :: d) = c :: z := by
  by_cases hz : rstrip d = []
  · refine ⟨[], ?_⟩
    have hall : ∀ x ∈ d, pyWs x := rstrip_eq_nil_iff.mp hz
    have hrev : ∀ x ∈ d.reverse, pyWs x := by simpa using hall
    rw [rstrip, List.reverse_cons, List.dropWhile_append_of_pos hrev]
    simp [List.dropWhile_cons, hc]
  · exact ⟨rstrip d, rstrip_cons_of_ne_nil hz⟩

theorem strip_lstrip (s : List Char) : strip (lstrip s) = strip s := by
  simp [strip, lstrip_idem]

theorem lstrip_ws_append {t b : List Char} (h : ∀ a ∈ t, pyWs a) :
    lstrip (t ++ b) = lstrip b := by
  simp [lstrip, List.dropWhile_append_of_pos h]

theorem lstrip_cons_not_ws {c : Char} {z : List Char} (hc : pyWs c = false) :
    lstrip (c :: z) = c :: z := by
  simp [lstrip, List.dropWhile_cons, hc]

theorem strip_rstrip (s : List Char) : strip (rstrip s) = strip s := by
  by_cases hd : lstrip s = []
  · have hall : ∀ c ∈ s, pyWs c := lstrip_eq_nil_iff.mp hd
    have hr : rstrip s = [] := rstrip_eq_nil_iff.mpr hall
    have h1 : strip s = [] := by
      show rstrip (lstrip s) = []
      rw [hd]
      rfl
    rw [hr, h1]
    rfl
  · obtain ⟨c, d', hcd⟩ : ∃ c d', lstrip s = c :: d' := by
      cases hx : lstrip s with
      | nil => exact absurd hx hd
      | cons c d' => exact ⟨c, d', rfl⟩
    have hcw : pyWs c = false := not_ws_head_lstrip hcd
    obtain ⟨z, hz⟩ : ∃ z, rstrip (lstrip s) = c :: z := by
      rw [hcd]
      exact rstrip_cons_head_not_ws hcw
    have hrd : rstrip (lstrip s) ≠ [] := by
      rw [hz]
      simp
    have hdecomp : s.takeWhile pyWs ++ lstrip s = s :=
      List.takeWhile_append_dropWhile pyWs s
    have hrs : rstrip s = s.takeWhile pyWs ++ rstrip (lstrip s) := by
      conv_lhs => rw [← hdecomp]
      exact rstrip_append hrd
    have htws : ∀ a ∈ s.takeWhile pyWs, pyWs a := fun a ha => List.mem_takeWhile_imp ha
    calc strip (rstrip s)
        = rstrip (lstrip (rstrip s)) := rfl
      _ = rstrip (lstrip (rstrip (lstrip s))) := by
            rw [hrs, lstrip_ws_append htws]
      _ = rstrip (rstrip (lstrip s)) := by
            rw [hz, lstrip_cons_not_ws hcw]
      _ = rstrip (lstrip s) := rstrip_idem _
      _ = strip s := rfl

theorem strip_idem (s : List Char) : strip (strip s) = strip s := by
  calc strip (strip s) = strip (rstrip (lstrip s)) := rfl
    _ = strip (lstrip s) := strip_rstrip _
    _ = strip s := strip_lstrip _

theorem keepLine_lstrip (l : List Char) : keepLine (lstrip l) = keepLine l := by
  simp [keepLine, strip_lstrip]

theorem keepLine_rstrip (l : List Char) : keepLine (rstrip l) = keepLine l := by
  simp [keepLine, strip_rstrip]

theorem keepLine_strip (l : List Char) : keepLine (strip l) = keepLine l := by
  simp [keepLine, strip_idem]

/-! ### Facts about splitting and joining on newlines -/

theorem splitNl_eq_cons (s : List Char) : ∃ h0 t0, splitNl s = h0 :: t0 := by
  cases s with
  | nil => exact ⟨[], [], rfl⟩
  | cons c cs =>
    by_cases h : c = '\n'
    · exact ⟨[], splitNl cs, by simp [splitNl, h]⟩
    · exact ⟨c :: (splitNl cs).headI, (splitNl cs).tail, by simp [splitNl, h]⟩

theorem splitNl_ne_nil (s : List Char) : splitNl s ≠ [] := by
  obtain ⟨h0, t0, hs⟩ := splitNl_eq_cons s
  simp [hs]

theorem splitNl_nl_cons (cs : List Char) : splitNl ('\n' :: cs) = [] :: splitNl cs := by
  simp [splitNl]

theorem splitNl_cons_of_ne {c : Char} {cs h0 : List Char} {t0 : List (List Char)}
    (hc : c ≠ '\n') (hs : splitNl cs = h0 :: t0) :
    splitNl (c :: cs) = (c :: h0) :: t0 := by
  simp [splitNl, hc, hs]

theorem not_nl_mem_splitNl {s : List Char} : ∀ l ∈ splitNl s, '\n' ∉ l := by
  induction s with
  | nil =>
    intro l hl
    simp [splitNl] at hl
    simp [hl]
  | cons c cs ih =>
    intro l hl
    obtain ⟨h0, t0, hs⟩ := splitNl_eq_cons cs
    by_cases hc : c = '\n'
    · subst hc
      rw [splitNl_nl_cons] at hl
      rcases List.mem_cons.mp hl with h | h
      · simp [h]
      · exact ih l h
    · rw [splitNl_cons_of_ne hc hs] at hl
      rcases List.mem_cons.mp hl with h | h
      · subst h
        have hh0 : '\n' ∉ h0 := ih h0 (by simp [hs])
        simp only [List.mem_cons, not_or]
        exact ⟨fun hx => hc hx.symm, hh0⟩
      · exact ih l (by simp [hs, h])

theorem splitNl_of_no_nl {s : List Char} (h : '\n' ∉ s) : splitNl s = [s] := by
  induction s with
  | nil => rfl
  | cons c cs ih =>
    have hc : c ≠ '\n' := by
      intro hx
      exact h (by simp [hx])
    have hcs : '\n' ∉ cs := fun hx => h (by simp [hx])
    exact splitNl_cons_of_ne hc (ih hcs)

theorem splitNl_append_nl {k t : List Char} (h : '\n' ∉ k) :
    splitNl (k ++ '\n' :: t) = k :: splitNl t := by
  induction k with
  | nil => simpa using splitNl_nl_cons t
  | cons c k' ih =>
    have hc : c ≠ '\n' := by
      intro hx
      exact h (by simp [hx])
    have hk' : '\n' ∉ k' := fun hx => h (by simp [hx])
    have := splitNl_cons_of_ne hc (ih hk')
    simpa using this

theorem joinNl_single (k : List Char) : joinNl [k] = k := by
  simp [joinNl, joinTail]

theorem joinNl_cons_cons (k k' : List Char) (ks : List (List Char)) :
    joinNl (k :: k' :: ks) = k ++ '\n' :: joinNl (k' :: ks) := rfl

theorem splitNl_joinNl : ∀ {ks : List (List Char)}, ks ≠ [] →
    (∀ k ∈ ks, '\n' ∉ k) → splitNl (joinNl ks) = ks := by
  intro ks
  induction ks with
  | nil => intro h; exact absurd rfl h
  | cons k ks' ih =>
    intro _ hfree
    cases ks' with
    | nil =>
      rw [joinNl_single]
      exact splitNl_of_no_nl (hfree k (by simp))
    | cons k' ks'' =>
      rw [joinNl_cons_cons, splitNl_append_nl (hfree k (by simp))]
      have : splitNl (joinNl (k' :: ks'')) = k' :: ks'' := by
        apply ih (by simp)
        intro x hx
        exact hfree x (by simp [hx])
      rw [this]

/-! ### No adjacent newlines, the substring test, and the collapse loop -/

theorem noNN_tail {c : Char} {rest : List Char} (h : noNN (c :: rest) = true) :
    noNN rest = true := by
  cases rest with
  | nil => rfl
  | cons d cs =>
    have he : noNN (c :: d :: cs) = (!(c = '\n' && d = '\n') && noNN (d :: cs)) := rfl
    rw [he, Bool.and_eq_true] at h
    exact h.2

theorem noNN_cons_of_ne {c : Char} {rest : List Char} (hc : c ≠ '\n')
    (h : noNN rest = true) : noNN (c :: rest) = true := by
  cases rest with
  | nil => rfl
  | cons d cs =>
    show (!(c = '\n' && d = '\n') && noNN (d :: cs)) = true
    rw [h]
    simp [hc]

theorem noNN_nl_cons {c : Char} {rest : List Char} (hc : c ≠ '\n')
    (h : noNN (c :: rest) = true) : noNN ('\n' :: c :: rest) = true := by
  show (!(('\n' : Char) = '\n' && c = '\n') && noNN (c :: rest)) = true
  rw [h]
  simp [hc]

theorem noNN_of_no_nl {s : List Char} (h : '\n' ∉ s) : noNN s = true := by
  induction s with
  | nil => rfl
  | cons c cs ih =>
    have hc : c ≠ '\n' := by
      intro hx
      exact h (by simp [hx])
    exact noNN_cons_of_ne hc (ih fun hx => h (by simp [hx]))

theorem noNN_append {a b : List Char} (ha : '\n' ∉ a) (hb : noNN b = true) :
    noNN (a ++ b) = true := by
  induction a with
  | nil => simpa using hb
  | cons c a' ih =>
    have hc : c ≠ '\n' := by
      intro hx
      exact ha (by simp [hx])
    exact noNN_cons_of_ne hc (ih fun hx => ha (by simp [hx]))

theorem noNN_joinNl : ∀ {ks : List (List Char)},
    (∀ k ∈ ks, k ≠ [] ∧ '\n' ∉ k) → noNN (joinNl ks) = true := by
  intro ks
  induction ks with
  | nil => intro _; rfl
  | cons k ks' ih =>
    intro h
    cases ks' with
    | nil =>
      rw [joinNl_single]
      exact noNN_of_no_nl (h k (by simp)).2
    | cons k' ks'' =>
      rw [joinNl_cons_cons]
      apply noNN_append (h k (by simp)).2
      obtain ⟨hk'ne, hk'nl⟩ := h k' (by simp)
      obtain ⟨e, k''0, hk'⟩ : ∃ e k''0, k' = e :: k''0 := by
        cases k' with
        | nil => exact absurd rfl hk'ne
        | cons e k''0 => exact ⟨e, k''0, rfl⟩
      have he : e ≠ '\n' := by
        intro hx
        exact hk'nl (by simp [hk', hx])
      have hj : joinNl (k' :: ks'') = e :: (k''0 ++ joinTail ks'') := by
        rw [hk']
        rfl
      have hihn : noNN (joinNl (k' :: ks'')) = true := by
        apply ih
        intro x hx
        exact h x (by simp [hx])
      rw [hj] at hihn ⊢
      exact noNN_nl_cons he hihn

theorem not_containsSubstr_nl2_of_noNN : ∀ {s : List Char}, noNN s = true →
    containsSubstr ['\n', '\n'] s = false := by
  intro s
  induction s with
  | nil => intro _; rfl
  | cons c cs ih =>
    intro h
    have hrec : containsSubstr ['\n', '\n'] cs = false := ih (noNN_tail h)
    have hexp : containsSubstr ['\n', '\n'] (c :: cs) =
        (startsWith ['\n', '\n'] (c :: cs) || containsSubstr ['\n', '\n'] cs) := rfl
    rw [hexp, hrec, Bool.or_false]
    cases cs with
    | nil => simp [startsWith]
    | cons d cs' =>
      cases hb : startsWith ['\n', '\n'] (c :: d :: cs') with
      | false => rfl
      | true =>
        have hb' : ('\n' = c ∧ '\n' = d) := by
          simpa [startsWith] using hb
        obtain ⟨h1, h2⟩ := hb'
        subst h1
        subst h2
        have he : noNN ('\n' :: '\n' :: cs') =
            (!(('\n' : Char) = '\n' && ('\n' : Char) = '\n') && noNN ('\n' :: cs')) := rfl
        rw [he] at h
        simp at h

theorem containsSubstr_nl2_of_nl3 : ∀ {s : List Char},
    containsSubstr ['\n', '\n', '\n'] s = true → containsSubstr ['\n', '\n'] s = true := by
  intro s
  induction s with
  | nil =>
    intro h
    cases h
  | cons c cs ih =>
    intro h
    show (startsWith ['\n', '\n'] (c :: cs) || containsSubstr ['\n', '\n'] cs) = true
    have h' : (startsWith ['\n', '\n', '\n'] (c :: cs) ||
        containsSubstr ['\n', '\n', '\n'] cs) = true := h
    rw [Bool.or_eq_true] at h' ⊢
    rcases h' with h1 | h2
    · left
      cases cs with
      | nil => simp [startsWith] at h1
      | cons d cs' =>
        have hd : '\n' = c ∧ ('\n' = d ∧ startsWith ['\n'] cs' = true) := by
          simpa [startsWith] using h1
        simp [startsWith]
        exact ⟨hd.1, hd.2.1⟩
    · right
      exact ih h2

theorem collapseGo_of_not_nl3 {n : Nat} {s : List Char}
    (h : containsSubstr ['\n', '\n', '\n'] s = false) : collapseGo n s = s := by
  cases n with
  | zero => rfl
  | succ m => simp [collapseGo, h]

theorem collapseNl_of_not_nl3 {s : List Char}
    (h : containsSubstr ['\n', '\n', '\n'] s = false) : collapseNl s = s :=
  collapseGo_of_not_nl3 h

theorem collapseNl_of_noNN {s : List Char} (h : noNN s = true) : collapseNl s = s := by
  apply collapseNl_of_not_nl3
  by_contra h3
  have h3' : containsSubstr ['\n', '\n', '\n'] s = true := by
    cases hx : containsSubstr ['\n', '\n', '\n'] s with
    | false => exact absurd hx h3
    | true => rfl
  have := containsSubstr_nl2_of_nl3 h3'
  rw [not_containsSubstr_nl2_of_noNN h] at this
  cases this

/-! ### Edge stripping of a list of lines -/

theorem edgeLast_ne_nil : ∀ {ks : List (List Char)}, ks ≠ [] → edgeLast ks ≠ [] := by
  intro ks h
  cases ks with
  | nil => exact absurd rfl h
  | cons k ks' =>
    cases ks' with
    | nil => simp [edgeLast]
    | cons k' ks'' => simp [edgeLast]

theorem edgeStrip_ne_nil {ks : List (List Char)} (h : ks ≠ []) : edgeStrip ks ≠ [] := by
  cases ks with
  | nil => exact absurd rfl h
  | cons k ks' =>
    show edgeLast (lstrip k :: ks') ≠ []
    exact edgeLast_ne_nil (by simp)

theorem mem_edgeLast : ∀ {ks : List (List Char)} {x : List Char}, x ∈ edgeLast ks →
    x ∈ ks ∨ ∃ k ∈ ks, x = rstrip k := by
  intro ks
  induction ks with
  | nil =>
    intro x hx
    simp [edgeLast] at hx
  | cons k ks' ih =>
    intro x hx
    cases ks' with
    | nil =>
      right
      refine ⟨k, by simp, ?_⟩
      simpa [edgeLast] using hx
    | cons k' ks'' =>
      rw [show edgeLast (k :: k' :: ks'') = k :: edgeLast (k' :: ks'') from rfl] at hx
      rcases List.mem_cons.mp hx with h | h
      · left
        simp [h]
      · rcases ih h with h2 | ⟨k0, hk0, hx0⟩
        · left
          simp [h2]
        · right
          exact ⟨k0, by simp [hk0], hx0⟩

theorem mem_edgeStrip {ks : List (List Char)} {x : List Char} (hx : x ∈ edgeStrip ks) :
    x ∈ ks ∨ ∃ k ∈ ks, x = lstrip k ∨ x = rstrip k ∨ x = strip k := by
  cases ks with
  | nil => simp [edgeStrip] at hx
  | cons k ks' =>
    rcases mem_edgeLast hx with h | ⟨k0, hk0, hx0⟩
    · rcases List.mem_cons.mp h with h1 | h1
      · right
        exact ⟨k, by simp, Or.inl h1⟩
      · left
        simp [h1]
    · rcases List.mem_cons.mp hk0 with h1 | h1
      · right
        refine ⟨k, by simp, Or.inr (Or.inr ?_)⟩
        rw [hx0, h1]
        rfl
      · right
        exact ⟨k0, by simp [h1], Or.inr (Or.inl hx0)⟩

theorem edgeLast_edgeLast : ∀ {ks : List (List Char)}, edgeLast (edgeLast ks) = edgeLast ks := by
  intro ks
  induction ks with
  | nil => rfl
  | cons k ks' ih =>
    cases ks' with
    | nil => simp [edgeLast, rstrip_idem]
    | cons k' ks'' =>
      rw [show edgeLast (k :: k' :: ks'') = k :: edgeLast (k' :: ks'') from rfl]
      obtain ⟨e, es, he⟩ : ∃ e es, edgeLast (k' :: ks'') = e :: es := by
        cases hx : edgeLast (k' :: ks'') with
        | nil => exact absurd hx (edgeLast_ne_nil (by simp))
        | cons e es => exact ⟨e, es, rfl⟩
      rw [he, show edgeLast (k :: e :: es) = k :: edgeLast (e :: es) from rfl, ← he, ih]

theorem edgeStrip_edgeStrip {ks : List (List Char)} :
    edgeStrip (edgeStrip ks) = edgeStrip ks := by
  cases ks with
  | nil => rfl
  | cons k ks' =>
    cases ks' with
    | nil =>
      show edgeStrip (edgeLast [lstrip k]) = edgeLast [lstrip k]
      have h1 : edgeLast [lstrip k] = [strip k] := rfl
      rw [h1]
      show edgeLast [lstrip (strip k)] = [strip k]
      have h2 : edgeLast [lstrip (strip k)] = [strip (strip k)] := rfl
      rw [h2, strip_idem]
    | cons k' ks'' =>
      show edgeStrip (edgeLast (lstrip k :: k' :: ks'')) = edgeLast (lstrip k :: k' :: ks'')
      rw [show edgeLast (lstrip k :: k' :: ks'') = lstrip k :: edgeLast (k' :: ks'') from rfl]
      obtain ⟨e, es, he⟩ : ∃ e es, edgeLast (k' :: ks'') = e :: es := by
        cases hx : edgeLast (k' :: ks'') with
        | nil => exact absurd hx (edgeLast_ne_nil (by simp))
        | cons e es => exact ⟨e, es, rfl⟩
      rw [he]
      show edgeLast (lstrip (lstrip k) :: e :: es) = lstrip k :: e :: es
      rw [lstrip_idem]
      rw [show edgeLast (lstrip k :: e :: es) = lstrip k :: edgeLast (e :: es) from rfl]
      rw [← he, edgeLast_edgeLast, he]

/-! ### Stripping a newline-join of lines -/

theorem rstrip_joinNl : ∀ {ks : List (List Char)}, ks ≠ [] →
    (∀ k ∈ ks, strip k ≠ []) → rstrip (joinNl ks) = joinNl (edgeLast ks) := by
  intro ks
  induction ks with
  | nil => intro h; exact absurd rfl h
  | cons k ks' ih =>
    intro _ hstrip
    cases ks' with
    | nil =>
      rw [joinNl_single, show edgeLast [k] = [rstrip k] from rfl, joinNl_single]
    | cons k' ks'' =>
      have hnws : ∃ c ∈ joinNl (k' :: ks''), pyWs c = false := by
        obtain ⟨c, hc, hcw⟩ := exists_not_ws_of_strip_ne_nil (hstrip k' (by simp))
        exact ⟨c, by
          show c ∈ k' ++ joinTail ks''
          exact List.mem_append_left _ hc, hcw⟩
      have hrne : rstrip (joinNl (k' :: ks'')) ≠ [] := rstrip_ne_nil_of_not_ws hnws
      have hb : rstrip ('\n' :: joinNl (k' :: ks'')) = '\n' :: rstrip (joinNl (k' :: ks'')) :=
        rstrip_cons_of_ne_nil hrne
      have hbne : rstrip ('\n' :: joinNl (k' :: ks'')) ≠ [] := by
        rw [hb]
        simp
      have hih : rstrip (joinNl (k' :: ks'')) = joinNl (edgeLast (k' :: ks'')) := by
        apply ih (by simp)
        intro x hx
        exact hstrip x (by simp [hx])
      obtain ⟨e, es, he⟩ : ∃ e es, edgeLast (k' :: ks'') = e :: es := by
        cases hx : edgeLast (k' :: ks'') with
        | nil => exact absurd hx (edgeLast_ne_nil (by simp))
        | cons e es => exact ⟨e, es, rfl⟩
      calc rstrip (joinNl (k :: k' :: ks''))
          = rstrip (k ++ '\n' :: joinNl (k' :: ks'')) := by rw [joinNl_cons_cons]
        _ = k ++ rstrip ('\n' :: joinNl (k' :: ks'')) := rstrip_append hbne
        _ = k ++ '\n' :: rstrip (joinNl (k' :: ks'')) := by rw [hb]
        _ = k ++ '\n' :: joinNl (edgeLast (k' :: ks'')) := by rw [hih]
        _ = joinNl (k :: edgeLast (k' :: ks'')) := by rw [he, joinNl_cons_cons]
        _ = joinNl (edgeLast (k :: k' :: ks'')) := by
              rw [show edgeLast (k :: k' :: ks'') = k :: edgeLast (k' :: ks'') from rfl]

theorem strip_joinNl {k : List Char} {ks : List (List Char)}
    (hstrip : ∀ x ∈ k :: ks, strip x ≠ []) :
    strip (joinNl (k :: ks)) = joinNl (edgeStrip (k :: ks)) := by
  have hlk : lstrip k ≠ [] := lstrip_ne_nil_of_strip (hstrip k (by simp))
  have h1 : lstrip (joinNl (k :: ks)) = joinNl (lstrip k :: ks) := by
    show lstrip (k ++ joinTail ks) = joinNl (lstrip k :: ks)
    rw [lstrip_append hlk]
    rfl
  show rstrip (lstrip (joinNl (k :: ks))) = joinNl (edgeStrip (k :: ks))
  rw [h1]
  rw [show edgeStrip (k :: ks) = edgeLast (lstrip k :: ks) from rfl]
  apply rstrip_joinNl (by simp)
  intro x hx
  rcases List.mem_cons.mp hx with h | h
  · rw [h, strip_lstrip]
    exact hstrip k (by simp)
  · exact hstrip x (by simp [h])

/-! ### Properties of the surviving lines -/

theorem keepLine_strip_ne_nil {k : List Char} (h : keepLine k = true) : strip k ≠ [] := by
  intro hnil
  rw [keepLine, hnil] at h
  simp [keepCore, pyLower] at h

theorem filter_piece_props {d x : List Char}
    (hx : x ∈ (splitNl d).filter keepLine) :
    keepLine x = true ∧ '\n' ∉ x ∧ strip x ≠ [] ∧ x ≠ [] := by
  have h0 := (List.mem_filter.mp hx).1
  have h1 := (List.mem_filter.mp hx).2
  have h2 : '\n' ∉ x := not_nl_mem_splitNl x h0
  have h3 : strip x ≠ [] := keepLine_strip_ne_nil h1
  have h4 : x ≠ [] := by
    rintro rfl
    exact h3 rfl
  exact ⟨h1, h2, h3, h4⟩

theorem edgeStrip_piece_props {ks : List (List Char)}
    (hk : ∀ x ∈ ks, keepLine x = true ∧ '\n' ∉ x ∧ strip x ≠ []) :
    ∀ x ∈ edgeStrip ks, keepLine x = true ∧ '\n' ∉ x ∧ strip x ≠ [] := by
  intro x hx
  rcases mem_edgeStrip hx with hmem | ⟨k, hkmem, hcase⟩
  · exact hk x hmem
  · obtain ⟨hkeep, hnl, hstr⟩ := hk k hkmem
    rcases hcase with rfl | rfl | rfl
    · exact ⟨by rw [keepLine_lstrip]; exact hkeep,
        fun hm => hnl (mem_of_mem_lstrip hm),
        by rw [strip_lstrip]; exact hstr⟩
    · exact ⟨by rw [keepLine_rstrip]; exact hkeep,
        fun hm => hnl (mem_of_mem_rstrip hm),
        by rw [strip_rstrip]; exact hstr⟩
    · exact ⟨by rw [keepLine_strip]; exact hkeep,
        fun hm => hnl (mem_of_mem_strip hm),
        by rw [strip_idem]; exact hstr⟩

/-! ### A closed form for the normalizer -/

theorem aggressive_preprocess_eq (d : List Char) :
    aggressive_preprocess d = joinNl (edgeStrip ((splitNl d).filter keepLine)) := by
  cases hks : (splitNl d).filter keepLine with
  | nil =>
    show strip (collapseNl (joinNl ((splitNl d).filter keepLine))) = _
    rw [hks]
    rfl
  | cons k ks' =>
    have hprops : ∀ x ∈ (splitNl d).filter keepLine,
        keepLine x = true ∧ '\n' ∉ x ∧ strip x ≠ [] ∧ x ≠ [] :=
      fun x hx => filter_piece_props hx
    rw [hks] at hprops
    have hnn : noNN (joinNl (k :: ks')) = true := by
      apply noNN_joinNl
      intro x hx
      exact ⟨(hprops x hx).2.2.2, (hprops x hx).2.1⟩
    show strip (collapseNl (joinNl ((splitNl d).filter keepLine))) = _
    rw [hks, collapseNl_of_noNN hnn]
    exact strip_joinNl fun x hx => (hprops x hx).2.2.1

theorem map_strip_edgeLast : ∀ {ks : List (List Char)},
    (edgeLast ks).map strip = ks.map strip := by
  intro ks
  induction ks with
  | nil => rfl
  | cons k ks' ih =>
    cases ks' with
    | nil =>
      show [strip (rstrip k)] = [strip k]
      rw [strip_rstrip]
    | cons k' ks'' =>
      rw [show edgeLast (k :: k' :: ks'') = k :: edgeLast (k' :: ks'') from rfl]
      show strip k :: (edgeLast (k' :: ks'')).map strip = strip k :: (k' :: ks'').map strip
      rw [ih]

theorem map_strip_edgeStrip {ks : List (List Char)} :
    (edgeStrip ks).map strip = ks.map strip := by
  cases ks with
  | nil => rfl
  | cons k ks' =>
    show (edgeLast (lstrip k :: ks')).map strip = (k :: ks').map strip
    rw [map_strip_edgeLast]
    show strip (lstrip k) :: ks'.map strip = strip k :: ks'.map strip
    rw [strip_lstrip]

theorem preprocess_noNN (d : List Char) : noNN (aggressive_preprocess d) = true := by
  rw [aggressive_preprocess_eq d]
  apply noNN_joinNl
  intro x hx
  have hp := edgeStrip_piece_props (fun y hy =>
    ⟨(filter_piece_props hy).1, (filter_piece_props hy).2.1,
     (filter_piece_props hy).2.2.1⟩) x hx
  refine ⟨?_, hp.2.1⟩
  intro hxe
  exact hp.2.2 (by rw [hxe]; rfl)

theorem preprocess_no_nl2 (d : List Char) :
    containsSubstr ['\n', '\n'] (aggressive_preprocess d) = false :=
  not_containsSubstr_nl2_of_noNN (preprocess_noNN d)

theorem not_nl3_of_not_nl2 {s : List Char}
    (h : containsSubstr ['\n', '\n'] s = false) :
    containsSubstr ['\n', '\n', '\n'] s = false := by
  cases hx : containsSubstr ['\n', '\n', '\n'] s with
  | false => rfl
  | true =>
    rw [containsSubstr_nl2_of_nl3 hx] at h
    cases h

theorem preprocess_no_nl3 (d : List Char) :
    containsSubstr ['\n', '\n', '\n'] (aggressive_preprocess d) = false :=
  not_nl3_of_not_nl2 (preprocess_no_nl2 d)

theorem joined_noNN (d : List Char) :
    noNN (joinNl ((splitNl d).filter keepLine)) = true :=
  noNN_joinNl fun _ hx =>
    ⟨(filter_piece_props hx).2.2.2, (filter_piece_props hx).2.1⟩

/-! ### Claim theorems for the normalizer -/

/-- C1: the normalizer `aggressive_preprocess` is idempotent: running it on
its own output returns that output unchanged, under the fixed policy
(15-character minimum, the built-in marker list, the all-caps rule,
blank-line collapsing, and the final whole-result trim). -/
theorem aggressive_preprocess_idempotent (d : List Char) :
    aggressive_preprocess (aggressive_preprocess d) = aggressive_preprocess d := by
  rw [aggressive_preprocess_eq d]
  have hprops : ∀ x ∈ edgeStrip ((splitNl d).filter keepLine),
      keepLine x = true ∧ '\n' ∉ x ∧ strip x ≠ [] :=
    edgeStrip_piece_props fun y hy =>
      ⟨(filter_piece_props hy).1, (filter_piece_props hy).2.1,
       (filter_piece_props hy).2.2.1⟩
  cases hes : edgeStrip ((splitNl d).filter keepLine) with
  | nil => rfl
  | cons e es' =>
    rw [hes] at hprops
    have hne : ∀ x ∈ e :: es', x ≠ [] := by
      intro x hx hxe
      exact (hprops x hx).2.2 (by rw [hxe]; rfl)
    have hsplit : splitNl (joinNl (e :: es')) = e :: es' :=
      splitNl_joinNl (by simp) fun x hx => (hprops x hx).2.1
    have hfilter : (e :: es').filter keepLine = e :: es' :=
      List.filter_eq_self.mpr fun x hx => (hprops x hx).1
    have hnn : noNN (joinNl (e :: es')) = true :=
      noNN_joinNl fun x hx => ⟨hne x hx, (hprops x hx).2.1⟩
    show strip (collapseNl (joinNl ((splitNl (joinNl (e :: es'))).filter keepLine))) = _
    rw [hsplit, hfilter, collapseNl_of_noNN hnn,
      strip_joinNl fun x hx => (hprops x hx).2.2]
    rw [← hes, edgeStrip_edgeStrip, hes]

/-- C2, counterexample: the claim that an exactly-double newline between two
surviving lines is preserved fails on the document made of two substantive
16-character lines separated by one blank line: both lines survive, the
input contains a double newline, but the output contains none (the blank
line is removed entirely, not preserved). -/
theorem blank_line_not_preserved_cex :
    keepLine ("aaaaaaaaaaaaaaaa".toList) = true ∧
    keepLine ("bbbbbbbbbbbbbbbb".toList) = true ∧
    containsSubstr ['\n', '\n'] ("aaaaaaaaaaaaaaaa\n\nbbbbbbbbbbbbbbbb".toList) = true ∧
    aggressive_preprocess ("aaaaaaaaaaaaaaaa\n\nbbbbbbbbbbbbbbbb".toList) =
      "aaaaaaaaaaaaaaaa\nbbbbbbbbbbbbbbbb".toList ∧
    containsSubstr ['\n', '\n']
      (aggressive_preprocess ("aaaaaaaaaaaaaaaa\n\nbbbbbbbbbbbbbbbb".toList)) = false := by
  refine ⟨by decide, by decide, by decide, by decide, by decide⟩

/-- C2, amended: the normalizer's output never contains a run of three or
more consecutive newlines, as claimed; but exactly-double newlines are not
preserved: the output contains no double newline at all, because every
blank or whitespace-only line fails the 15-character minimum and is
removed before the lines are rejoined. -/
theorem blank_collapse_amended (d : List Char) :
    containsSubstr ['\n', '\n', '\n'] (aggressive_preprocess d) = false ∧
    containsSubstr ['\n', '\n'] (aggressive_preprocess d) = false :=
  ⟨preprocess_no_nl3 d, preprocess_no_nl2 d⟩

/-- C7, counterexample: an output line need not be a line of the input.  On
the single-line document consisting of one space followed by fifteen
letters, the line survives, but the final whole-result trim removes its
leading space, so the only output line differs from every input line. -/
theorem line_rewrite_cex :
    splitNl (aggressive_preprocess (" aaaaaaaaaaaaaaa".toList)) =
      ["aaaaaaaaaaaaaaa".toList] ∧
    "aaaaaaaaaaaaaaa".toList ∉ splitNl (" aaaaaaaaaaaaaaa".toList) := by
  refine ⟨by decide, by decide⟩

/-- C7, amended: modulo edge whitespace, the output lines are a subsequence
of the input lines: when some line survives, the list of output lines,
each taken up to leading/trailing whitespace, is a subsequence of the
input's lines taken the same way (so the normalizer deletes lines and
never reorders or invents them); the only rewriting is the removal of
leading whitespace on the first output line and trailing whitespace on
the last one, performed by the final whole-result trim.  When no line
survives the output is the empty document. -/
theorem lines_subsequence_mod_trim (d : List Char) :
    aggressive_preprocess d = [] ∨
    ((splitNl (aggressive_preprocess d)).map strip).Sublist
      ((splitNl d).map strip) := by
  rw [aggressive_preprocess_eq d]
  have hprops : ∀ x ∈ edgeStrip ((splitNl d).filter keepLine),
      keepLine x = true ∧ '\n' ∉ x ∧ strip x ≠ [] :=
    edgeStrip_piece_props fun y hy =>
      ⟨(filter_piece_props hy).1, (filter_piece_props hy).2.1,
       (filter_piece_props hy).2.2.1⟩
  cases hes : edgeStrip ((splitNl d).filter keepLine) with
  | nil => exact Or.inl rfl
  | cons e es' =>
    right
    rw [hes] at hprops
    have hsplit : splitNl (joinNl (e :: es')) = e :: es' :=
      splitNl_joinNl (by simp) fun x hx => (hprops x hx).2.1
    rw [hsplit, ← hes, map_strip_edgeStrip]
    exact List.Sublist.map strip (List.filter_sublist _)

/-- C10: the normalizer's output contains no blank line at all (no two
consecutive newline characters), because every whitespace-only line fails
the 15-character minimum before joining; consequently the triple-newline
collapsing loop never changes the joined text. -/
theorem output_no_double_newline (d : List Char) :
    containsSubstr ['\n', '\n'] (aggressive_preprocess d) = false ∧
    collapseNl (joinNl ((splitNl d).filter keepLine)) =
      joinNl ((splitNl d).filter keepLine) :=
  ⟨preprocess_no_nl2 d, collapseNl_of_noNN (joined_noNN d)⟩

/-- C9: the normalizer is a total function of its input (it is defined by
structural recursion and a bounded loop, with no failure path): on the
empty document it returns the empty document, and whenever no line
survives the filter it returns the empty document. -/
theorem normalizer_total_empty :
    aggressive_preprocess ("".toList) = "".toList ∧
    ∀ d : List Char, (splitNl d).filter keepLine = [] →
      aggressive_preprocess d = [] := by
  constructor
  · decide
  · intro d h
    rw [aggressive_preprocess_eq d, h]
    rfl

/-- C9, witness: no line of the two-character document survives, and the
normalizer returns the empty document on it. -/
theorem normalizer_total_empty_witness :
    (splitNl ("hi".toList)).filter keepLine = [] ∧
      aggressive_preprocess ("hi".toList) = [] :=
  ⟨by decide, normalizer_total_empty.2 ("hi".toList) (by decide)⟩

theorem keepCore_eq (s : List Char) : keepCore s =
    (if (pyLower s).length < 15 then false
     else if meta_patterns.any (fun pat => containsSubstr pat (pyLower s)) then false
     else if pyIsUpper s ∧ s.length > 5 then false
     else true) := rfl

theorem pyLower_length (s : List Char) : (pyLower s).length = s.length :=
  List.length_map _ _

/-- C6: a line is dropped if and only if its trimmed length is below 15, or
its lowercased trimmed form contains a configured marker substring, or its
trimmed form is entirely upper-case and longer than 5 characters; in
particular every line whose trimmed form has exactly 14 characters is
dropped, and the 15-character mixed-case marker-free line consisting of
the fifteen characters H, e, space, s, a, w, space, t, h, e, space, c, a,
r, dot is kept. -/
theorem keepLine_drop_iff :
    (∀ line : List Char, keepLine line = false ↔
      ((strip line).length < 15 ∨
       (∃ pat ∈ meta_patterns, containsSubstr pat (pyLower (strip line)) = true) ∨
       (pyIsUpper (strip line) = true ∧ 5 < (strip line).length))) ∧
    (∀ line : List Char, (strip line).length = 14 → keepLine line = false) ∧
    keepLine ("He saw the car.".toList) = true := by
  refine ⟨?_, ?_, by decide⟩
  · intro line
    rw [keepLine, keepCore_eq]
    by_cases h1 : (pyLower (strip line)).length < 15
    · rw [if_pos h1]
      rw [pyLower_length] at h1
      simp [h1]
    · rw [if_neg h1]
      rw [pyLower_length] at h1
      by_cases h2 : meta_patterns.any
          (fun pat => containsSubstr pat (pyLower (strip line))) = true
      · rw [if_pos h2]
        rw [List.any_eq_true] at h2
        obtain ⟨pat, hp, hc⟩ := h2
        simp only [false_iff, eq_self_iff_true, true_iff]
        exact Or.inr (Or.inl ⟨pat, hp, hc⟩)
      · rw [if_neg h2]
        by_cases h3 : pyIsUpper (strip line) = true ∧ (strip line).length > 5
        · rw [if_pos h3]
          simp only [eq_self_iff_true, true_iff]
          exact Or.inr (Or.inr h3)
        · rw [if_neg h3]
          simp only [Bool.true_eq_false, false_iff]
          push_neg at h2
          intro hcon
          rcases hcon with hA | hB | hC
          · exact h1 hA
          · exact h2 (List.any_eq_true.mpr
              ⟨hB.choose, hB.choose_spec.1, hB.choose_spec.2⟩)
          · exact h3 hC
  · intro line h
    rw [keepLine, keepCore_eq,
      if_pos (show (pyLower (strip line)).length < 15 by rw [pyLower_length, h]; omega)]

/-- C6, witness: the 14-character line S, h, o, r, t, space, h, e, a, d, l,
i, n, e has trimmed length exactly 14 and is dropped. -/
theorem keepLine_drop_iff_witness :
    (strip ("Short headline".toList)).length = 14 ∧
      keepLine ("Short headline".toList) = false :=
  ⟨by decide, keepLine_drop_iff.2.1 ("Short headline".toList) (by decide)⟩

/-! ### Claim theorems for the size manager -/

/-- C3: whenever the document's length is at most the 16000-character
trigger threshold, `smart_summarize_case` returns the document unchanged
and never invokes the condense capability (no recorded call). -/
theorem smart_summarize_noop_under_budget
    (condense : List Char → Except Unit (Option (List Char))) (d : List Char)
    (h : d.length ≤ 16000) :
    smart_summarize_case condense d = (some d, []) := by
  simp [smart_summarize_case, h]

/-- C3, witness: on a three-character document the size manager is the
identity and makes no condense call, even with an always-failing
condenser. -/
theorem smart_summarize_noop_witness :
    ("abc".toList).length ≤ 16000 ∧
      smart_summarize_case (fun _ => Except.error ()) ("abc".toList) =
        (some ("abc".toList), []) :=
  ⟨by decide, smart_summarize_noop_under_budget _ _ (by decide)⟩

/-- C4: if the condense capability always throws, the size manager's result
is exactly the left-prefix of the input of length min(input length, 16000):
it always returns the first 16000 characters (or the whole document when
shorter), which is a prefix of the input of that exact length. -/
theorem smart_summarize_failing_condenser
    (condense : List Char → Except Unit (Option (List Char))) (d : List Char)
    (h : ∀ x, condense x = Except.error ()) :
    (smart_summarize_case condense d).1 = some (d.take 16000) ∧
    (d.take 16000).length = min d.length 16000 ∧
    ∃ t, d = d.take 16000 ++ t := by
  refine ⟨?_, ?_, ⟨d.drop 16000, (List.take_append_drop _ _).symm⟩⟩
  · by_cases hle : d.length ≤ 16000
    · rw [List.take_of_length_le hle]
      simp [smart_summarize_case, hle]
    · simp [smart_summarize_case, hle, h]
  · rw [List.length_take, Nat.min_comm]

/-- C4, witness: with the always-throwing condenser and a three-character
document, the result is that document, of length min(3, 16000), a prefix
of itself. -/
theorem smart_summarize_failing_condenser_witness :
    (∀ x : List Char,
      (fun _ : List Char => (Except.error () : Except Unit (Option (List Char)))) x =
        Except.error ()) ∧
    ((smart_summarize_case (fun _ => Except.error ()) ("abc".toList)).1 =
        some (("abc".toList).take 16000) ∧
     (("abc".toList).take 16000).length = min ("abc".toList).length 16000 ∧
     ∃ t, "abc".toList = ("abc".toList).take 16000 ++ t) :=
  ⟨fun _ => rfl, smart_summarize_failing_condenser _ _ (fun _ => rfl)⟩

/-- C5, counterexample: the claim that an empty or null condense result
triggers the truncation fallback is false.  On the 16001-character
document of letters a, a condenser that succeeds with an empty text makes
the size manager return the empty text (not the 16000-character prefix),
and a condenser that succeeds with a null content makes it return the
null value, which is handed to the caller. -/
theorem empty_condense_result_cex :
    16000 < (List.replicate 16001 'a').length ∧
    (smart_summarize_case (fun _ => Except.ok (some []))
        (List.replicate 16001 'a')).1 = some [] ∧
    some ([] : List Char) ≠ some ((List.replicate 16001 'a').take 16000) ∧
    (smart_summarize_case (fun _ => Except.ok none)
        (List.replicate 16001 'a')).1 = none := by
  have hlen : (List.replicate 16001 'a').length = 16001 := List.length_replicate _ _
  have hne : ¬ (List.replicate 16001 'a').length ≤ 16000 := by
    rw [hlen]
    omega
  refine ⟨by rw [hlen]; omega, ?_, ?_, ?_⟩
  · unfold smart_summarize_case
    rw [if_neg hne]
  · intro hEq
    have h1 := congrArg List.length (Option.some.inj hEq)
    rw [List.length_take, hlen] at h1
    simp only [List.length_nil] at h1
    omega
  · unfold smart_summarize_case
    rw [if_neg hne]

/-- C5, amended: for every over-budget document, when the condense call
raises an exception (the code's only failure branch, which also covers
timeouts, surfaced as exceptions) the size manager returns the first
16000 characters of the input verbatim and no error reaches the caller;
but when the call succeeds its result is returned as-is, so an empty
text is passed through unchanged and a null content is propagated to the
caller rather than replaced by the truncation fallback. -/
theorem condense_failure_fallback
    (condense : List Char → Except Unit (Option (List Char))) (d : List Char)
    (h : 16000 < d.length) :
    (condense (d.take 16000) = Except.error () →
      (smart_summarize_case condense d).1 = some (d.take 16000)) ∧
    ∀ r : Option (List Char), condense (d.take 16000) = Except.ok r →
      (smart_summarize_case condense d).1 = r := by
  have hne : ¬ d.length ≤ 16000 := by omega
  constructor
  · intro herr
    simp [smart_summarize_case, hne, herr]
  · intro r hok
    simp [smart_summarize_case, hne, hok]

/-- C5, witness: instantiated on the 16001-character document with the
always-throwing condenser. -/
theorem condense_failure_fallback_witness :
    16000 < (List.replicate 16001 'a').length ∧
    (((fun _ : List Char => (Except.error () : Except Unit (Option (List Char))))
        ((List.replicate 16001 'a').take 16000) = Except.error () →
      (smart_summarize_case (fun _ => Except.error ())
          (List.replicate 16001 'a')).1 =
        some ((List.replicate 16001 'a').take 16000)) ∧
     ∀ r : Option (List Char),
      (fun _ : List Char => (Except.error () : Except Unit (Option (List Char))))
        ((List.replicate 16001 'a').take 16000) = Except.ok r →
      (smart_summarize_case (fun _ => Except.error ())
          (List.replicate 16001 'a')).1 = r) :=
  ⟨by rw [List.length_replicate]; omega,
   condense_failure_fallback (fun _ => Except.error ()) (List.replicate 16001 'a')
     (by rw [List.length_replicate]; omega)⟩

/-- C8: for every over-budget document, the condense capability is invoked
exactly once, with exactly the first 16000 characters of the input as the
document text, never the full text (the argument differs from the whole
document, whose length exceeds 16000). -/
theorem condense_receives_16000_prefix
    (condense : List Char → Except Unit (Option (List Char))) (d : List Char)
    (h : 16000 < d.length) :
    (smart_summarize_case condense d).2 = [d.take 16000] ∧
    (d.take 16000).length = 16000 ∧
    d.take 16000 ≠ d := by
  have hne : ¬ d.length ≤ 16000 := by omega
  refine ⟨?_, ?_, ?_⟩
  · cases hc : condense (d.take 16000) with
    | ok r => simp [smart_summarize_case, hne, hc]
    | error e => simp [smart_summarize_case, hne, hc]
  · rw [List.length_take]
    omega
  · intro heq
    have hl := congrArg List.length heq
    rw [List.length_take] at hl
    omega

/-- C8, witness: instantiated on the 16001-character document with an
always-throwing condenser; the recorded call argument is the
16000-character prefix, which is not the whole document. -/
theorem condense_receives_16000_prefix_witness :
    16000 < (List.replicate 16001 'a').length ∧
    ((smart_summarize_case (fun _ => Except.error ())
        (List.replicate 16001 'a')).2 = [(List.replicate 16001 'a').take 16000] ∧
     ((List.replicate 16001 'a').take 16000).length = 16000 ∧
     (List.replicate 16001 'a').take 16000 ≠ List.replicate 16001 'a') :=
  ⟨by rw [List.length_replicate]; omega,
   condense_receives_16000_prefix (fun _ => Except.error ()) (List.replicate 16001 'a')
     (by rw [List.length_replicate]; omega)⟩
